import Mathlib

/-!
Prefix masks and wildcard address matching (`NetUtil.cpp`).

A shallow embedding of `aeron-driver/src/main/cpp/uri/NetUtil.cpp`:
the two mask derivations `prefixLengthToIpV4Mask` / `prefixLengthToIpV6Mask`
and the two overloads of `NetUtil::wildcardMatch`.

Modelling conventions.

* `std::uint32_t` and `std::uint64_t` values are natural numbers; every
  arithmetic step of the source is followed by the reduction modulo `2 ^ 32`
  or `2 ^ 64` that the unsigned type performs.
* An address is its sequence of bytes in the order they are stored, which is
  network order.  Reading such bytes through a `std::uint32_t*` or
  `std::uint64_t*` gives a value that depends on the byte order of the host;
  the host byte order is a parameter of the model, and so is the meaning of
  `htobe32` / `htobe64` (a byte swap on a little-endian host, the identity on a
  big-endian one).
* A left shift whose count is not smaller than the width of the shifted operand
  has no defined result in C++.  `ShiftSemantics.standard` models exactly that
  (`none`); `ShiftSemantics.masked` models the value delivered by the shift
  instructions of x86-64 and AArch64, which use the count modulo the width.
  For a count inside the range both agree.
* `long` is 64 bits wide (LP64), as it is on the platforms that provide
  `htobe64`.
-/

namespace Aeron

/-! ## Data model -/

/-- One octet. -/
abbrev Byte := Fin 256

/-- The four bytes of a `struct in_addr`, in the order they are stored. -/
abbrev in_addr := Fin 4 → Byte

/-- The sixteen bytes `s6_addr` of a `struct in6_addr`, in the order they are
stored. -/
abbrev in6_addr := Fin 16 → Byte

/-- Byte order of the host. -/
inductive ByteOrder where
  | littleEndian
  | bigEndian
  deriving DecidableEq

/-- Meaning given to a left shift whose count is out of range. -/
inductive ShiftSemantics where
  | standard
  | masked
  deriving DecidableEq

/-! ## Machine arithmetic -/

/-- Subtraction of `std::uint32_t`. -/
def sub32 (a b : Nat) : Nat := (a + (2 ^ 32 - b % 2 ^ 32)) % 2 ^ 32

/-- Subtraction of `std::uint64_t`. -/
def sub64 (a b : Nat) : Nat := (a + (2 ^ 64 - b % 2 ^ 64)) % 2 ^ 64

/-- Bitwise complement `~` of a `std::uint32_t`. -/
def not32 (x : Nat) : Nat := 2 ^ 32 - 1 - x % 2 ^ 32

/-- Bitwise complement `~` of a `std::uint64_t`. -/
def not64 (x : Nat) : Nat := 2 ^ 64 - 1 - x % 2 ^ 64

/-- The expression `x << count` on an operand of `width` bits, read back as an
unsigned value of that width.  With a count below the width this is the shifted
value; otherwise the result depends on the shift semantics. -/
def shl (sem : ShiftSemantics) (width x count : Nat) : Option Nat :=
  if count < width then some ((x <<< count) % 2 ^ width)
  else
    match sem with
    | .standard => none
    | .masked => some ((x <<< (count % width)) % 2 ^ width)

/-- Value of `n` consecutive bytes read as one unsigned integer by a
little-endian host: the first byte is the least significant. -/
def loadLE : (n : Nat) → (Fin n → Byte) → Nat
  | 0, _ => 0
  | n + 1, f => (f 0).val + 256 * loadLE n (fun i => f i.succ)

/-- Value of `n` consecutive bytes read as one unsigned integer by a
big-endian host: the first byte is the most significant. -/
def loadBE : (n : Nat) → (Fin n → Byte) → Nat
  | 0, _ => 0
  | n + 1, f => (f 0).val * 256 ^ n + loadBE n (fun i => f i.succ)

/-- Dereference of a pointer to an `n`-byte unsigned integer that points at the
bytes `f`. -/
def load (host : ByteOrder) (n : Nat) (f : Fin n → Byte) : Nat :=
  match host with
  | .littleEndian => loadLE n f
  | .bigEndian => loadBE n f

/-- Reversal of the `n` low bytes of `x`. -/
def bswap : (n : Nat) → Nat → Nat
  | 0, _ => 0
  | n + 1, x => (x % 256) * 256 ^ n + bswap n (x / 256)

/-- The conversion `htobe32`. -/
def htobe32 (host : ByteOrder) (x : Nat) : Nat :=
  match host with
  | .littleEndian => bswap 4 x
  | .bigEndian => x

/-- The conversion `htobe64`. -/
def htobe64 (host : ByteOrder) (x : Nat) : Nat :=
  match host with
  | .littleEndian => bswap 8 x
  | .bigEndian => x

/-! ## The source functions -/

/-- Embedding of
`0 == subnetPrefix ? 0 : ~((1L << 64 - subnetPrefix) - UINT64_C(1))`.
The count `64 - subnetPrefix` is computed in `std::uint64_t`. -/
def prefixLengthToIpV6Mask (sem : ShiftSemantics) (subnetPrefix : Nat) : Option Nat :=
  if subnetPrefix = 0 then some 0
  else (shl sem 64 1 (sub64 64 subnetPrefix)).map (fun s => not64 (sub64 s 1))

/-- Embedding of
`0 == subnetPrefix ? 0 : ~((1 << (32 - subnetPrefix)) - UINT32_C(1))`.
The count `32 - subnetPrefix` is computed in `std::uint32_t`. -/
def prefixLengthToIpV4Mask (sem : ShiftSemantics) (subnetPrefix : Nat) : Option Nat :=
  if subnetPrefix = 0 then some 0
  else (shl sem 32 1 (sub32 32 subnetPrefix)).map (fun s => not32 (sub32 s 1))

/-- The argument `prefixLength - 64` of the second mask derivation: the
subtraction is done in `std::uint32_t` and the result widened to
`std::uint64_t`. -/
def lowerMaskArg (prefixLength : Nat) : Nat := sub32 prefixLength 64

/-- Bytes 0..7 of an IPv6 address, the eight bytes at `a->s6_addr`. -/
def upperBytes (a : in6_addr) : Fin 8 → Byte := fun i => a (Fin.castAdd 8 i)

/-- Bytes 8..15 of an IPv6 address, the eight bytes at `&a->s6_addr[8]`. -/
def lowerBytes (a : in6_addr) : Fin 8 → Byte := fun i => a (Fin.natAdd 8 i)

/-- The word `*((std::uint64_t*) a->s6_addr)`. -/
def upperWord (host : ByteOrder) (a : in6_addr) : Nat :=
  load host 8 (upperBytes a)

/-- The word `*((std::uint64_t*) &a->s6_addr[8])`. -/
def lowerWord (host : ByteOrder) (a : in6_addr) : Nat :=
  load host 8 (lowerBytes a)

/-- Embedding of
`NetUtil::wildcardMatch(struct in6_addr*, struct in6_addr*, std::uint32_t)`.
The result is `none` when one of the two mask derivations has no defined
value. -/
def NetUtil.wildcardMatch_in6_addr (sem : ShiftSemantics) (host : ByteOrder)
    (data pattern : in6_addr) (prefixLength : Nat) : Option Bool :=
  let dataUpper := upperWord host data
  let dataLower := lowerWord host data
  let patternUpper := upperWord host pattern
  let patternLower := lowerWord host pattern
  match prefixLengthToIpV6Mask sem prefixLength,
        prefixLengthToIpV6Mask sem (lowerMaskArg prefixLength) with
  | some mu, some ml =>
    let maskUpper := htobe64 host mu
    let maskLower := htobe64 host ml
    some (((maskUpper &&& dataUpper) == (maskUpper &&& patternUpper)) &&
      ((maskLower &&& dataLower) == (maskLower &&& patternLower)))
  | _, _ => none

/-- Embedding of `NetUtil::wildcardMatch(in_addr*, in_addr*, std::uint32_t)`.
The result is `none` when the mask derivation has no defined value. -/
def NetUtil.wildcardMatch_in_addr (sem : ShiftSemantics) (host : ByteOrder)
    (data pattern : in_addr) (prefixLength : Nat) : Option Bool :=
  match prefixLengthToIpV4Mask sem prefixLength with
  | some m =>
    let mask := htobe32 host m
    some ((load host 4 data &&& mask) == (load host 4 pattern &&& mask))
  | none => none

/-! ## Vocabulary of the specification -/

/-- Byte `i` of an address, `0` beyond its end. -/
def byteAt {n : Nat} (a : Fin n → Byte) (i : Nat) : Nat :=
  if h : i < n then (a ⟨i, h⟩).val else 0

/-- Bit `k` of an address counted in network order: bit `7 - k % 8` of byte
`k / 8`. -/
def addrBit {n : Nat} (a : Fin n → Byte) (k : Nat) : Bool :=
  (byteAt a (k / 8)).testBit (7 - k % 8)

/-- Two addresses agree on their first `p` bits in network order. -/
def agreeOnLeadingBits {n : Nat} (a b : Fin n → Byte) (p : Nat) : Prop :=
  ∀ k, k < p → addrBit a k = addrBit b k

instance {n : Nat} (a b : Fin n → Byte) (p : Nat) : Decidable (agreeOnLeadingBits a b p) :=
  inferInstanceAs (Decidable (∀ k, k < p → addrBit a k = addrBit b k))

/-- An address given by the list of its bytes (missing bytes are zero). -/
def addrOfList (n : Nat) (l : List Nat) : Fin n → Byte :=
  fun i => Fin.ofNat (l.getD i.val 0)

/-- The address `10.0.0.1`. -/
def ip_10_0_0_1 : in_addr := addrOfList 4 [10, 0, 0, 1]

/-- The address `10.0.0.2`. -/
def ip_10_0_0_2 : in_addr := addrOfList 4 [10, 0, 0, 2]

/-- The address `::`. -/
def ip6_any : in6_addr := addrOfList 16 []

/-- The address `::1`. -/
def ip6_loopback : in6_addr := addrOfList 16 [0, 0, 0, 0, 0, 0, 0, 0, 0, 0, 0, 0, 0, 0, 0, 1]

/-- The address `2001:db8::`. -/
def ip6_doc : in6_addr := addrOfList 16 [0x20, 0x01, 0x0d, 0xb8]

/-- The address `2001:db8:0:0:8000::`, which differs from `2001:db8::` in bit 64
only. -/
def ip6_doc_bit64 : in6_addr := addrOfList 16 [0x20, 0x01, 0x0d, 0xb8, 0, 0, 0, 0, 0x80]

/-- The address `0:0:0:1::`, which differs from `::` in bit 63 only. -/
def ip6_bit63 : in6_addr := addrOfList 16 [0, 0, 0, 0, 0, 0, 0, 1]

/-- The address `::1:0:0:0`, which differs from `::` in bit 79 only. -/
def ip6_bit79 : in6_addr := addrOfList 16 [0, 0, 0, 0, 0, 0, 0, 0, 0, 1]

/-- A mask of `w` bits whose top `p` bits are one and whose other bits are
zero. -/
def IsLeadingMask (w p m : Nat) : Prop :=
  ∀ j, m.testBit j = (decide (j < w) && decide (w - p ≤ j))

/-- Number of leading bits of bytes 0..7 that the matcher compares when the shift
reduces its count modulo 64. -/
def maskedUpperBits (p : Nat) : Nat := if p ≤ 64 then p else p - 64

/-- Number of leading bits of bytes 8..15 that the matcher compares when the
shift reduces its count modulo 64. -/
def maskedLowerBits (p : Nat) : Nat := if p = 0 then 64 else if p < 64 then p else p - 64

/-- The address `192.168.1.5`. -/
def ip_192_168_1_5 : in_addr := addrOfList 4 [192, 168, 1, 5]

/-- The address `192.168.1.0`. -/
def ip_192_168_1_0 : in_addr := addrOfList 4 [192, 168, 1, 0]

/-- The address `192.168.2.5`. -/
def ip_192_168_2_5 : in_addr := addrOfList 4 [192, 168, 2, 5]

/-- The address `2001:db8::1`. -/
def ip6_doc_1 : in6_addr :=
  addrOfList 16 [0x20, 0x01, 0x0d, 0xb8, 0, 0, 0, 0, 0, 0, 0, 0, 0, 0, 0, 1]

/-- The address `2001:db9::1`. -/
def ip6_db9_1 : in6_addr :=
  addrOfList 16 [0x20, 0x01, 0x0d, 0xb9, 0, 0, 0, 0, 0, 0, 0, 0, 0, 0, 0, 1]

/-- The mask derivation `prefixLengthToIpV6Mask(subnetPrefix)` evaluates no
out-of-range shift: it takes the zero special case, or the count
`64 - subnetPrefix` of its shift lies in 0..63. -/
def ipV6ShiftDefined (subnetPrefix : Nat) : Prop :=
  subnetPrefix = 0 ∨ sub64 64 subnetPrefix < 64

instance (subnetPrefix : Nat) : Decidable (ipV6ShiftDefined subnetPrefix) :=
  inferInstanceAs (Decidable (subnetPrefix = 0 ∨ sub64 64 subnetPrefix < 64))

/-- The mask derivation `prefixLengthToIpV4Mask(subnetPrefix)` evaluates no
out-of-range shift: it takes the zero special case, or the count
`32 - subnetPrefix` of its shift lies in 0..31. -/
def ipV4ShiftDefined (subnetPrefix : Nat) : Prop :=
  subnetPrefix = 0 ∨ sub32 32 subnetPrefix < 32

instance (subnetPrefix : Nat) : Decidable (ipV4ShiftDefined subnetPrefix) :=
  inferInstanceAs (Decidable (subnetPrefix = 0 ∨ sub32 32 subnetPrefix < 32))

/-! ## Bits of loaded words and of swapped masks -/

theorem byteAt_lt {n : Nat} (a : Fin n → Byte) (i : Nat) : byteAt a i < 2 ^ 8 := by
  unfold byteAt
  split
  · exact (a _).isLt
  · decide

theorem byteAt_zero {n : Nat} (f : Fin (n + 1) → Byte) : byteAt f 0 = (f 0).val := by
  simp [byteAt]

theorem byteAt_succ {n : Nat} (f : Fin (n + 1) → Byte) (i : Nat) :
    byteAt (fun k : Fin n => f k.succ) i = byteAt f (i + 1) := by
  simp [byteAt, Fin.succ]

theorem loadLE_lt (n : Nat) (f : Fin n → Byte) : loadLE n f < 256 ^ n := by
  induction n with
  | zero => simp [loadLE]
  | succ n ih =>
    have h1 := ih (fun i => f i.succ)
    have h2 := (f 0).isLt
    simp only [loadLE, pow_succ]
    omega

theorem loadBE_lt (n : Nat) (f : Fin n → Byte) : loadBE n f < 256 ^ n := by
  induction n with
  | zero => simp [loadBE]
  | succ n ih =>
    have h1 := ih (fun i => f i.succ)
    have h2 := (f 0).isLt
    simp only [loadBE, pow_succ]
    nlinarith

theorem bswap_lt (n x : Nat) : bswap n x < 256 ^ n := by
  induction n generalizing x with
  | zero => simp [bswap]
  | succ n ih =>
    have h1 := ih (x / 256)
    have h2 : x % 256 < 256 := Nat.mod_lt _ (by decide)
    simp only [bswap, pow_succ]
    nlinarith

theorem pow256 (n : Nat) : 256 ^ n = 2 ^ (8 * n) := by
  rw [pow_mul]; rfl

theorem testBit_byte_high {x j : Nat} (hx : x < 2 ^ 8) (hj : 8 ≤ j) : x.testBit j = false :=
  Nat.testBit_lt_two_pow (lt_of_lt_of_le hx (Nat.pow_le_pow_right (by decide) hj))

theorem testBit_loadLE (n : Nat) (f : Fin n → Byte) (j : Nat) :
    (loadLE n f).testBit j = (byteAt f (j / 8)).testBit (j % 8) := by
  induction n generalizing j with
  | zero => simp [loadLE, byteAt]
  | succ n ih =>
    have h0 : (f 0).val < 2 ^ 8 := (f 0).isLt
    have e : loadLE (n + 1) f = 2 ^ 8 * loadLE n (fun i => f i.succ) + (f 0).val := by
      simp only [loadLE]; omega
    rw [e, Nat.testBit_mul_pow_two_add _ h0, ih, byteAt_succ]
    by_cases hj : j < 8
    · have e1 : j / 8 = 0 := by omega
      have e2 : j % 8 = j := by omega
      simp [hj, e1, e2, byteAt_zero]
    · have e1 : (j - 8) / 8 + 1 = j / 8 := by omega
      have e2 : (j - 8) % 8 = j % 8 := by omega
      simp [hj, e1, e2]

theorem testBit_loadBE (n : Nat) (f : Fin n → Byte) (j : Nat) :
    (loadBE n f).testBit j
      = (decide (j / 8 < n) && (byteAt f (n - 1 - j / 8)).testBit (j % 8)) := by
  induction n generalizing j with
  | zero => simp [loadBE]
  | succ n ih =>
    have hr : loadBE n (fun i => f i.succ) < 2 ^ (8 * n) := by
      rw [← pow256]; exact loadBE_lt _ _
    have e : loadBE (n + 1) f
        = 2 ^ (8 * n) * (f 0).val + loadBE n (fun i => f i.succ) := by
      simp only [loadBE, pow256]; ring
    rw [e, Nat.testBit_mul_pow_two_add _ hr, ih, byteAt_succ]
    by_cases hj : j < 8 * n
    · have e1 : j / 8 < n := by omega
      have e2 : j / 8 < n + 1 := by omega
      have e3 : n - 1 - j / 8 + 1 = n + 1 - 1 - j / 8 := by omega
      simp [hj, e1, e2, e3]
    · by_cases hq : j / 8 = n
      · have e1 : j - 8 * n = j % 8 := by omega
        have e2 : n + 1 - 1 - j / 8 = 0 := by omega
        simp [hj, hq, e1, e2, byteAt_zero]
      · have e1 : ¬ j / 8 < n + 1 := by omega
        have e2 : 8 ≤ j - 8 * n := by omega
        have h0 : (f 0).val < 2 ^ 8 := (f 0).isLt
        simp [hj, e1, testBit_byte_high h0 e2]

theorem testBit_div_256 (x j : Nat) : (x / 2 ^ 8).testBit j = x.testBit (8 + j) := by
  rw [← Nat.shiftRight_eq_div_pow, Nat.testBit_shiftRight]

theorem testBit_bswap (n x j : Nat) :
    (bswap n x).testBit j
      = (decide (j / 8 < n) && x.testBit (8 * (n - 1 - j / 8) + j % 8)) := by
  induction n generalizing x j with
  | zero => simp [bswap]
  | succ n ih =>
    have hr : bswap n (x / 256) < 2 ^ (8 * n) := by
      rw [← pow256]; exact bswap_lt _ _
    have e : bswap (n + 1) x = 2 ^ (8 * n) * (x % 256) + bswap n (x / 256) := by
      simp only [bswap, pow256]; ring
    have e256 : (256 : Nat) = 2 ^ 8 := by norm_num
    rw [e, Nat.testBit_mul_pow_two_add _ hr, ih]
    by_cases hj : j < 8 * n
    · have e1 : j / 8 < n := by omega
      have e2 : j / 8 < n + 1 := by omega
      have e3 : 8 + (8 * (n - 1 - j / 8) + j % 8) = 8 * (n + 1 - 1 - j / 8) + j % 8 := by omega
      rw [e256, testBit_div_256]
      simp [hj, e1, e2, e3]
    · by_cases hq : j / 8 = n
      · have e1 : j - 8 * n = j % 8 := by omega
        have e2 : 8 * (n + 1 - 1 - j / 8) + j % 8 = j % 8 := by omega
        have e3 : j % 8 < 8 := by omega
        rw [e256, Nat.testBit_mod_two_pow]
        simp [hj, hq, e1, e2, e3]
      · have e1 : ¬ j / 8 < n + 1 := by omega
        have e2 : ¬ j - 8 * n < 8 := by omega
        rw [e256, Nat.testBit_mod_two_pow]
        simp [hj, e1, e2]

theorem land_eq_land_iff (m a b : Nat) :
    (m &&& a) = (m &&& b) ↔ ∀ j, m.testBit j = true → a.testBit j = b.testBit j := by
  constructor
  · intro h j hj
    have := congrArg (fun z => Nat.testBit z j) h
    simpa [hj] using this
  · intro h
    apply Nat.eq_of_testBit_eq
    intro j
    rw [Nat.testBit_and, Nat.testBit_and]
    cases hm : m.testBit j
    · simp
    · simp [h j hm]

/-! ## Leading masks and the comparison of masked words -/

theorem testBit_leading (w s j : Nat) (hs : s ≤ w) :
    (2 ^ w - 2 ^ s).testBit j = (decide (j < w) && decide (s ≤ j)) := by
  have h1 : 0 < 2 ^ s := Nat.two_pow_pos s
  have h2 : 2 ^ s ≤ 2 ^ w := Nat.pow_le_pow_right (by decide) hs
  have e : 2 ^ w - 2 ^ s = 2 ^ w - ((2 ^ s - 1) + 1) := by omega
  have h3 : 2 ^ s - 1 < 2 ^ w := by omega
  rw [e, Nat.testBit_two_pow_sub_succ h3, Nat.testBit_two_pow_sub_one]
  by_cases h : j < s
  · simp [h]
  · simp [h]
    omega

theorem isLeadingMask_sub (w p : Nat) : IsLeadingMask w p (2 ^ w - 2 ^ (w - p)) := by
  intro j
  exact testBit_leading w (w - p) j (Nat.sub_le w p)

theorem bigEndian_masked_eq_iff (n : Nat) (a b : Fin n → Byte) (m p : Nat)
    (hp : p ≤ 8 * n) (hm : IsLeadingMask (8 * n) p m) :
    (m &&& loadBE n a) = (m &&& loadBE n b) ↔ agreeOnLeadingBits a b p := by
  rw [land_eq_land_iff]
  constructor
  · intro h k hk
    have hb : m.testBit (8 * n - 1 - k) = true := by
      rw [hm]; simp; omega
    have := h _ hb
    rw [testBit_loadBE, testBit_loadBE] at this
    have e1 : (8 * n - 1 - k) / 8 < n := by omega
    have e2 : n - 1 - (8 * n - 1 - k) / 8 = k / 8 := by omega
    have e3 : (8 * n - 1 - k) % 8 = 7 - k % 8 := by omega
    simpa [addrBit, e1, e2, e3] using this
  · intro h j hj
    rw [hm] at hj
    simp at hj
    have := h (8 * n - 1 - j) (by omega)
    rw [testBit_loadBE, testBit_loadBE]
    have e1 : j / 8 < n := by omega
    have e2 : (8 * n - 1 - j) / 8 = n - 1 - j / 8 := by omega
    have e3 : 7 - (8 * n - 1 - j) % 8 = j % 8 := by omega
    simpa [addrBit, e1, e2, e3] using this

theorem littleEndian_masked_eq_iff (n : Nat) (a b : Fin n → Byte) (m p : Nat)
    (hp : p ≤ 8 * n) (hm : IsLeadingMask (8 * n) p m) :
    (bswap n m &&& loadLE n a) = (bswap n m &&& loadLE n b) ↔ agreeOnLeadingBits a b p := by
  rw [land_eq_land_iff]
  constructor
  · intro h k hk
    have hb : (bswap n m).testBit (8 * (k / 8) + (7 - k % 8)) = true := by
      rw [testBit_bswap, hm]; simp; omega
    have := h _ hb
    rw [testBit_loadLE, testBit_loadLE] at this
    have e1 : (8 * (k / 8) + (7 - k % 8)) / 8 = k / 8 := by omega
    have e2 : (8 * (k / 8) + (7 - k % 8)) % 8 = 7 - k % 8 := by omega
    simpa [addrBit, e1, e2] using this
  · intro h j hj
    rw [testBit_bswap, hm] at hj
    simp at hj
    have := h (8 * (j / 8) + (7 - j % 8)) (by omega)
    rw [testBit_loadLE, testBit_loadLE]
    have e1 : (8 * (j / 8) + (7 - j % 8)) / 8 = j / 8 := by omega
    have e2 : 7 - (8 * (j / 8) + (7 - j % 8)) % 8 = j % 8 := by omega
    simpa [addrBit, e1, e2] using this

/-- The comparison made by both matchers on one word of `n` bytes, for either
host byte order, when the mask is a leading mask. -/
theorem masked_eq_iff (host : ByteOrder) (n : Nat) (a b : Fin n → Byte) (m p : Nat)
    (hp : p ≤ 8 * n) (hm : IsLeadingMask (8 * n) p m) :
    ((match host with
        | .littleEndian => bswap n m
        | .bigEndian => m) &&& load host n a)
      = ((match host with
        | .littleEndian => bswap n m
        | .bigEndian => m) &&& load host n b) ↔ agreeOnLeadingBits a b p := by
  cases host
  · exact littleEndian_masked_eq_iff n a b m p hp hm
  · exact bigEndian_masked_eq_iff n a b m p hp hm

/-! ## Values of the mask derivations inside their range -/

theorem ipv4Mask_value (sem : ShiftSemantics) (p : Nat) (hp : p ≤ 32) :
    prefixLengthToIpV4Mask sem p = some (2 ^ 32 - 2 ^ (32 - p)) := by
  interval_cases p <;> cases sem <;> rfl

theorem ipv6Mask_value (sem : ShiftSemantics) (p : Nat) (hp : p ≤ 64) :
    prefixLengthToIpV6Mask sem p = some (2 ^ 64 - 2 ^ (64 - p)) := by
  interval_cases p <;> cases sem <;> rfl

/-! ## The IPv4 matcher inside its range -/

theorem byteAt_of_lt {n : Nat} (a : Fin n → Byte) (i : Fin n) : byteAt a i.val = (a i).val := by
  simp [byteAt]

theorem agreeOnLeadingBits_full {n : Nat} (a b : Fin n → Byte) :
    agreeOnLeadingBits a b (8 * n) ↔ a = b := by
  constructor
  · intro h
    funext i
    apply Fin.ext
    apply Nat.eq_of_testBit_eq
    intro t
    by_cases ht : t < 8
    · have hi := i.isLt
      have := h (8 * i.val + (7 - t)) (by omega)
      have e1 : (8 * i.val + (7 - t)) / 8 = i.val := by omega
      have e2 : 7 - (8 * i.val + (7 - t)) % 8 = t := by omega
      simpa [addrBit, e1, e2, byteAt_of_lt] using this
    · rw [testBit_byte_high (a i).isLt (by omega), testBit_byte_high (b i).isLt (by omega)]
  · intro h k _
    rw [h]

theorem wildcardMatch_in_addr_eq (sem : ShiftSemantics) (host : ByteOrder)
    (data pattern : in_addr) (p : Nat) (hp : p ≤ 32) :
    NetUtil.wildcardMatch_in_addr sem host data pattern p
      = some (decide (agreeOnLeadingBits data pattern p)) := by
  have hm : IsLeadingMask (8 * 4) p (2 ^ 32 - 2 ^ (32 - p)) := isLeadingMask_sub 32 p
  have key := masked_eq_iff host 4 data pattern _ p (by omega) hm
  simp only [NetUtil.wildcardMatch_in_addr, ipv4Mask_value sem p hp, htobe32]
  congr 1
  rw [Bool.eq_iff_iff, beq_iff_eq, decide_eq_true_iff, ← key,
    Nat.land_comm (load host 4 data), Nat.land_comm (load host 4 pattern)]

/-! ## The IPv6 mask derivations outside the range of the shift -/

/-- For every prefix length below 64 the argument `prefixLength - 64` wraps to a
value of at least `2 ^ 32 - 64`, the count `64 - subnetPrefix` wraps in turn, and
the shift has no defined value; a shift that reduces its count modulo 64 gives
the all-ones mask at 0 and the leading mask of `prefixLength` bits
otherwise. -/
theorem lowerMask_below_64 :
    ∀ p : Fin 64,
      64 ≤ sub64 64 (lowerMaskArg p.val) ∧
      prefixLengthToIpV6Mask .standard (lowerMaskArg p.val) = none ∧
      prefixLengthToIpV6Mask .masked (lowerMaskArg p.val)
        = some (if p.val = 0 then 2 ^ 64 - 1 else 2 ^ 64 - 2 ^ (64 - p.val)) := by
  decide

/-- For every prefix length in 65..128 the count `64 - subnetPrefix` of the
upper mask wraps and the shift has no defined value; a shift that reduces its
count modulo 64 gives the leading mask of `prefixLength - 64` bits. -/
theorem upperMask_above_64 :
    ∀ q : Fin 64,
      64 ≤ sub64 64 (65 + q.val) ∧
      prefixLengthToIpV6Mask .standard (65 + q.val) = none ∧
      prefixLengthToIpV6Mask .masked (65 + q.val) = some (2 ^ 64 - 2 ^ (63 - q.val)) := by
  decide

/-- With the shift left undefined outside its range, the IPv6 matcher has a
defined result at no prefix length of 0..128 other than 64. -/
theorem wildcardMatch_in6_addr_standard_none (host : ByteOrder) (data pattern : in6_addr)
    (p : Nat) (hp : p ≤ 128) (h64 : p ≠ 64) :
    NetUtil.wildcardMatch_in6_addr .standard host data pattern p = none := by
  by_cases h : p < 64
  · have := (lowerMask_below_64 ⟨p, h⟩).2.1
    simp only at this
    simp only [NetUtil.wildcardMatch_in6_addr, this]
    split <;> simp_all
  · have hq : p - 65 < 64 := by omega
    have := (upperMask_above_64 ⟨p - 65, hq⟩).2.1
    have e : 65 + (p - 65) = p := by omega
    simp only [e] at this
    simp only [NetUtil.wildcardMatch_in6_addr, this]

/-! ## The IPv6 matcher in terms of the two masks -/

theorem addrBit_upperBytes (a : in6_addr) (k : Nat) (hk : k < 64) :
    addrBit (upperBytes a) k = addrBit a k := by
  have h1 : k / 8 < 8 := by omega
  have h2 : k / 8 < 16 := by omega
  simp [addrBit, byteAt, upperBytes, h1, h2, Fin.castAdd, Fin.castLE]

theorem addrBit_lowerBytes (a : in6_addr) (k : Nat) (hk : k < 64) :
    addrBit (lowerBytes a) k = addrBit a (64 + k) := by
  have h1 : k / 8 < 8 := by omega
  have h2 : (64 + k) / 8 < 16 := by omega
  have e1 : (64 + k) / 8 = 8 + k / 8 := by omega
  have e2 : (64 + k) % 8 = k % 8 := by omega
  have h3 : 8 + k / 8 < 16 := by omega
  simp [addrBit, byteAt, lowerBytes, h1, h3, e1, e2, Fin.natAdd]

/-- When the two derived masks are leading masks of `pu` and `pl` bits, the IPv6
matcher compares the first `pu` bits of bytes 0..7 and the first `pl` bits of
bytes 8..15. -/
theorem wildcardMatch_in6_addr_of_leading (sem : ShiftSemantics) (host : ByteOrder)
    (data pattern : in6_addr) (p mu ml pu pl : Nat)
    (hu : prefixLengthToIpV6Mask sem p = some mu)
    (hl : prefixLengthToIpV6Mask sem (lowerMaskArg p) = some ml)
    (hpu : pu ≤ 64) (hpl : pl ≤ 64)
    (hmu : IsLeadingMask 64 pu mu) (hml : IsLeadingMask 64 pl ml) :
    NetUtil.wildcardMatch_in6_addr sem host data pattern p
      = some (decide (agreeOnLeadingBits (upperBytes data) (upperBytes pattern) pu) &&
          decide (agreeOnLeadingBits (lowerBytes data) (lowerBytes pattern) pl)) := by
  have ku := masked_eq_iff host 8 (upperBytes data) (upperBytes pattern) mu pu (by omega) hmu
  have kl := masked_eq_iff host 8 (lowerBytes data) (lowerBytes pattern) ml pl (by omega) hml
  have eu : ((htobe64 host mu &&& upperWord host data)
      == (htobe64 host mu &&& upperWord host pattern))
      = decide (agreeOnLeadingBits (upperBytes data) (upperBytes pattern) pu) := by
    rw [Bool.eq_iff_iff, beq_iff_eq, decide_eq_true_iff, ← ku]
    rfl
  have el : ((htobe64 host ml &&& lowerWord host data)
      == (htobe64 host ml &&& lowerWord host pattern))
      = decide (agreeOnLeadingBits (lowerBytes data) (lowerBytes pattern) pl) := by
    rw [Bool.eq_iff_iff, beq_iff_eq, decide_eq_true_iff, ← kl]
    rfl
  simp only [NetUtil.wildcardMatch_in6_addr, hu, hl]
  rw [eu, el]

/-- The IPv6 matcher where the shift reduces its count modulo 64, for every
prefix length in 0..128. -/
theorem wildcardMatch_in6_addr_masked (host : ByteOrder) (data pattern : in6_addr)
    (p : Nat) (hp : p ≤ 128) :
    NetUtil.wildcardMatch_in6_addr .masked host data pattern p
      = some (decide (agreeOnLeadingBits (upperBytes data) (upperBytes pattern)
            (maskedUpperBits p)) &&
          decide (agreeOnLeadingBits (lowerBytes data) (lowerBytes pattern)
            (maskedLowerBits p))) := by
  by_cases h0 : p = 0
  · subst h0
    exact wildcardMatch_in6_addr_of_leading .masked host data pattern 0 _ _ 0 64
      (ipv6Mask_value .masked 0 (by decide)) (lowerMask_below_64 0).2.2
      (by decide) (by decide) (isLeadingMask_sub 64 0) (isLeadingMask_sub 64 64)
  by_cases h1 : p < 64
  · have hl := (lowerMask_below_64 ⟨p, h1⟩).2.2
    simp only [h0, if_false] at hl
    have e1 : maskedUpperBits p = p := by simp [maskedUpperBits]; omega
    have e2 : maskedLowerBits p = p := by simp [maskedLowerBits, h0, h1]
    rw [e1, e2]
    exact wildcardMatch_in6_addr_of_leading .masked host data pattern p _ _ p p
      (ipv6Mask_value .masked p (by omega)) hl (by omega) (by omega)
      (isLeadingMask_sub 64 p) (isLeadingMask_sub 64 p)
  by_cases h2 : p = 64
  · subst h2
    exact wildcardMatch_in6_addr_of_leading .masked host data pattern 64 _ _ 64 0
      (ipv6Mask_value .masked 64 (by decide)) (ipv6Mask_value .masked 0 (by decide))
      (by decide) (by decide) (isLeadingMask_sub 64 64) (isLeadingMask_sub 64 0)
  · have hq : p - 65 < 64 := by omega
    have hu := (upperMask_above_64 ⟨p - 65, hq⟩).2.2
    have e : 65 + (p - 65) = p := by omega
    have e3 : 63 - (p - 65) = 64 - (p - 64) := by omega
    simp only [e, e3] at hu
    have ea : lowerMaskArg p = p - 64 := by
      simp only [lowerMaskArg, sub32]
      omega
    have e1 : maskedUpperBits p = p - 64 := by simp [maskedUpperBits]; omega
    have e2 : maskedLowerBits p = p - 64 := by simp [maskedLowerBits, h0, h1]
    rw [e1, e2]
    exact wildcardMatch_in6_addr_of_leading .masked host data pattern p _ _ (p - 64) (p - 64)
      hu (by rw [ea]; exact ipv6Mask_value .masked (p - 64) (by omega)) (by omega) (by omega)
      (isLeadingMask_sub 64 (p - 64)) (isLeadingMask_sub 64 (p - 64))

/-! ## Definedness of the mask derivations -/

theorem ipV6Mask_standard_isSome_iff (subnetPrefix : Nat) :
    (prefixLengthToIpV6Mask .standard subnetPrefix).isSome = true
      ↔ ipV6ShiftDefined subnetPrefix := by
  unfold prefixLengthToIpV6Mask ipV6ShiftDefined shl
  by_cases h0 : subnetPrefix = 0
  · simp [h0]
  · by_cases hc : sub64 64 subnetPrefix < 64 <;> simp [h0, hc]

theorem ipV4Mask_standard_isSome_iff (subnetPrefix : Nat) :
    (prefixLengthToIpV4Mask .standard subnetPrefix).isSome = true
      ↔ ipV4ShiftDefined subnetPrefix := by
  unfold prefixLengthToIpV4Mask ipV4ShiftDefined shl
  by_cases h0 : subnetPrefix = 0
  · simp [h0]
  · by_cases hc : sub32 32 subnetPrefix < 32 <;> simp [h0, hc]

theorem ipV6Mask_masked_isSome (subnetPrefix : Nat) :
    (prefixLengthToIpV6Mask .masked subnetPrefix).isSome = true := by
  unfold prefixLengthToIpV6Mask shl
  by_cases h0 : subnetPrefix = 0
  · simp [h0]
  · by_cases hc : sub64 64 subnetPrefix < 64 <;> simp [h0, hc]

theorem ipV4Mask_masked_isSome (subnetPrefix : Nat) :
    (prefixLengthToIpV4Mask .masked subnetPrefix).isSome = true := by
  unfold prefixLengthToIpV4Mask shl
  by_cases h0 : subnetPrefix = 0
  · simp [h0]
  · by_cases hc : sub32 32 subnetPrefix < 32 <;> simp [h0, hc]

/-! ## Independence of the host byte order -/

/-- For any mask, the comparison made on a little-endian host (bytes loaded
least significant first, mask byte-swapped) and the one made on a big-endian
host (bytes loaded most significant first, mask unchanged) agree. -/
theorem masked_eq_host_independent (n : Nat) (a b : Fin n → Byte) (m : Nat) :
    (bswap n m &&& loadLE n a) = (bswap n m &&& loadLE n b)
      ↔ (m &&& loadBE n a) = (m &&& loadBE n b) := by
  rw [land_eq_land_iff, land_eq_land_iff]
  constructor
  · intro h j hj
    rw [testBit_loadBE, testBit_loadBE]
    by_cases hq : j / 8 < n
    · have hb : (bswap n m).testBit (8 * (n - 1 - j / 8) + j % 8) = true := by
        have e1 : (8 * (n - 1 - j / 8) + j % 8) / 8 < n := by omega
        have e2 : 8 * (n - 1 - (8 * (n - 1 - j / 8) + j % 8) / 8)
            + (8 * (n - 1 - j / 8) + j % 8) % 8 = j := by omega
        rw [testBit_bswap, e2, hj, decide_eq_true e1]
        rfl
      have := h _ hb
      rw [testBit_loadLE, testBit_loadLE] at this
      have e3 : (8 * (n - 1 - j / 8) + j % 8) / 8 = n - 1 - j / 8 := by omega
      have e4 : (8 * (n - 1 - j / 8) + j % 8) % 8 = j % 8 := by omega
      simpa [hq, e3, e4] using this
    · simp [hq]
  · intro h j hj
    rw [testBit_bswap] at hj
    simp at hj
    have := h _ hj.2
    rw [testBit_loadBE, testBit_loadBE] at this
    rw [testBit_loadLE, testBit_loadLE]
    have e1 : (8 * (n - 1 - j / 8) + j % 8) / 8 < n := by omega
    have e2 : n - 1 - (8 * (n - 1 - j / 8) + j % 8) / 8 = j / 8 := by omega
    have e3 : (8 * (n - 1 - j / 8) + j % 8) % 8 = j % 8 := by omega
    simpa [e1, e2, e3] using this

/-! ## Halves of an IPv6 address -/

theorem upperBytes_eq_iff (A B : in6_addr) :
    upperBytes A = upperBytes B ↔ ∀ i : Fin 16, i.val < 8 → A i = B i := by
  constructor
  · intro h i hi
    have := congrFun h ⟨i.val, hi⟩
    simpa [upperBytes, Fin.castAdd, Fin.castLE] using this
  · intro h
    funext j
    exact h (Fin.castAdd 8 j) j.isLt

theorem lowerBytes_eq_iff (A B : in6_addr) :
    lowerBytes A = lowerBytes B ↔ ∀ i : Fin 16, 8 ≤ i.val → A i = B i := by
  constructor
  · intro h i hi
    have hlt : i.val - 8 < 8 := by have := i.isLt; omega
    have := congrFun h ⟨i.val - 8, hlt⟩
    have e : (Fin.natAdd 8 ⟨i.val - 8, hlt⟩ : Fin (8 + 8)) = i := by
      apply Fin.ext
      simp only [Fin.natAdd]
      omega
    simp only [lowerBytes] at this
    rw [e] at this
    exact this
  · intro h
    funext j
    exact h (Fin.natAdd 8 j) (by simp [Fin.natAdd])

theorem agreeOnLeadingBits_refl {n : Nat} (a : Fin n → Byte) (p : Nat) :
    agreeOnLeadingBits a a p := fun _ _ => rfl

theorem agreeOnLeadingBits_mono {n : Nat} (a b : Fin n → Byte) (p q : Nat) (hq : q ≤ p)
    (h : agreeOnLeadingBits a b p) : agreeOnLeadingBits a b q :=
  fun k hk => h k (Nat.lt_of_lt_of_le hk hq)

/-- The IPv6 matcher at prefix length 64, for either shift semantics: bytes 0..7
are compared, bytes 8..15 are not. -/
theorem wildcardMatch_in6_addr_64_eq (sem : ShiftSemantics) (host : ByteOrder)
    (A B : in6_addr) :
    NetUtil.wildcardMatch_in6_addr sem host A B 64
      = some (decide (∀ i : Fin 16, i.val < 8 → A i = B i)) := by
  have key := wildcardMatch_in6_addr_of_leading sem host A B 64 _ _ 64 0
    (ipv6Mask_value sem 64 (by decide)) (ipv6Mask_value sem 0 (by decide))
    (by decide) (by decide) (isLeadingMask_sub 64 64) (isLeadingMask_sub 64 0)
  rw [key]
  congr 1
  have h0 : agreeOnLeadingBits (lowerBytes A) (lowerBytes B) 0 :=
    fun k hk => absurd hk (Nat.not_lt_zero k)
  rw [decide_eq_true h0, Bool.and_true, Bool.eq_iff_iff, decide_eq_true_iff,
    decide_eq_true_iff, show (64 : Nat) = 8 * 8 from rfl, agreeOnLeadingBits_full,
    upperBytes_eq_iff]

/-! ## The matchers in terms of a defined mask -/

theorem wildcardMatch_in_addr_of_mask (sem : ShiftSemantics) (host : ByteOrder)
    (A B : in_addr) (p m : Nat) (h : prefixLengthToIpV4Mask sem p = some m) :
    NetUtil.wildcardMatch_in_addr sem host A B p
      = some ((load host 4 A &&& htobe32 host m) == (load host 4 B &&& htobe32 host m)) := by
  simp only [NetUtil.wildcardMatch_in_addr, h]

theorem wildcardMatch_in6_addr_of_mask (sem : ShiftSemantics) (host : ByteOrder)
    (A B : in6_addr) (p mu ml : Nat) (hu : prefixLengthToIpV6Mask sem p = some mu)
    (hl : prefixLengthToIpV6Mask sem (lowerMaskArg p) = some ml) :
    NetUtil.wildcardMatch_in6_addr sem host A B p
      = some (((htobe64 host mu &&& upperWord host A) == (htobe64 host mu &&& upperWord host B))
          && ((htobe64 host ml &&& lowerWord host A)
            == (htobe64 host ml &&& lowerWord host B))) := by
  simp only [NetUtil.wildcardMatch_in6_addr, hu, hl]

theorem wildcardMatch_in_addr_symm (sem : ShiftSemantics) (host : ByteOrder)
    (A B : in_addr) (p : Nat) :
    NetUtil.wildcardMatch_in_addr sem host A B p
      = NetUtil.wildcardMatch_in_addr sem host B A p := by
  cases h : prefixLengthToIpV4Mask sem p with
  | none => simp only [NetUtil.wildcardMatch_in_addr, h]
  | some m =>
    rw [wildcardMatch_in_addr_of_mask sem host A B p m h,
      wildcardMatch_in_addr_of_mask sem host B A p m h]
    congr 1
    rw [Bool.eq_iff_iff, beq_iff_eq, beq_iff_eq]
    exact eq_comm

theorem wildcardMatch_in6_addr_symm (sem : ShiftSemantics) (host : ByteOrder)
    (A B : in6_addr) (p : Nat) :
    NetUtil.wildcardMatch_in6_addr sem host A B p
      = NetUtil.wildcardMatch_in6_addr sem host B A p := by
  cases hu : prefixLengthToIpV6Mask sem p with
  | none => simp only [NetUtil.wildcardMatch_in6_addr, hu]
  | some mu =>
    cases hl : prefixLengthToIpV6Mask sem (lowerMaskArg p) with
    | none => simp only [NetUtil.wildcardMatch_in6_addr, hu, hl]
    | some ml =>
      rw [wildcardMatch_in6_addr_of_mask sem host A B p mu ml hu hl,
        wildcardMatch_in6_addr_of_mask sem host B A p mu ml hu hl]
      refine congrArg some ?_
      rw [Bool.eq_iff_iff, Bool.and_eq_true, Bool.and_eq_true, beq_iff_eq, beq_iff_eq,
        beq_iff_eq, beq_iff_eq]
      exact ⟨fun h => ⟨h.1.symm, h.2.symm⟩, fun h => ⟨h.1.symm, h.2.symm⟩⟩

/-! ## Reflexivity and transitivity of the matchers -/

theorem wildcardMatch_in_addr_refl_of_defined (sem : ShiftSemantics) (host : ByteOrder)
    (A : in_addr) (p : Nat) (hdef : (prefixLengthToIpV4Mask sem p).isSome = true) :
    NetUtil.wildcardMatch_in_addr sem host A A p = some true := by
  obtain ⟨m, hm⟩ := Option.isSome_iff_exists.1 hdef
  rw [wildcardMatch_in_addr_of_mask sem host A A p m hm, beq_self_eq_true]

theorem wildcardMatch_in_addr_refl_ne_false (sem : ShiftSemantics) (host : ByteOrder)
    (A : in_addr) (p : Nat) :
    NetUtil.wildcardMatch_in_addr sem host A A p ≠ some false := by
  cases h : prefixLengthToIpV4Mask sem p with
  | none =>
    simp only [NetUtil.wildcardMatch_in_addr, h]
    exact Option.noConfusion
  | some m =>
    rw [wildcardMatch_in_addr_of_mask sem host A A p m h, beq_self_eq_true]
    decide

theorem wildcardMatch_in_addr_trans (sem : ShiftSemantics) (host : ByteOrder)
    (A B C : in_addr) (p : Nat)
    (hab : NetUtil.wildcardMatch_in_addr sem host A B p = some true)
    (hbc : NetUtil.wildcardMatch_in_addr sem host B C p = some true) :
    NetUtil.wildcardMatch_in_addr sem host A C p = some true := by
  cases h : prefixLengthToIpV4Mask sem p with
  | none =>
    simp only [NetUtil.wildcardMatch_in_addr, h] at hab
    exact Option.noConfusion hab
  | some m =>
    rw [wildcardMatch_in_addr_of_mask sem host A B p m h] at hab
    rw [wildcardMatch_in_addr_of_mask sem host B C p m h] at hbc
    rw [wildcardMatch_in_addr_of_mask sem host A C p m h]
    have h1 := beq_iff_eq.1 (Option.some.inj hab)
    have h2 := beq_iff_eq.1 (Option.some.inj hbc)
    exact congrArg some (beq_iff_eq.2 (h1.trans h2))

theorem wildcardMatch_in6_addr_refl_of_defined (sem : ShiftSemantics) (host : ByteOrder)
    (A : in6_addr) (p : Nat) (hu : (prefixLengthToIpV6Mask sem p).isSome = true)
    (hl : (prefixLengthToIpV6Mask sem (lowerMaskArg p)).isSome = true) :
    NetUtil.wildcardMatch_in6_addr sem host A A p = some true := by
  obtain ⟨mu, hmu⟩ := Option.isSome_iff_exists.1 hu
  obtain ⟨ml, hml⟩ := Option.isSome_iff_exists.1 hl
  rw [wildcardMatch_in6_addr_of_mask sem host A A p mu ml hmu hml, beq_self_eq_true,
    beq_self_eq_true]
  rfl

theorem wildcardMatch_in6_addr_refl_ne_false (sem : ShiftSemantics) (host : ByteOrder)
    (A : in6_addr) (p : Nat) :
    NetUtil.wildcardMatch_in6_addr sem host A A p ≠ some false := by
  cases hu : prefixLengthToIpV6Mask sem p with
  | none =>
    simp only [NetUtil.wildcardMatch_in6_addr, hu]
    exact Option.noConfusion
  | some mu =>
    cases hl : prefixLengthToIpV6Mask sem (lowerMaskArg p) with
    | none =>
      simp only [NetUtil.wildcardMatch_in6_addr, hu, hl]
      exact Option.noConfusion
    | some ml =>
      rw [wildcardMatch_in6_addr_of_mask sem host A A p mu ml hu hl, beq_self_eq_true,
        beq_self_eq_true]
      decide

theorem wildcardMatch_in6_addr_trans (sem : ShiftSemantics) (host : ByteOrder)
    (A B C : in6_addr) (p : Nat)
    (hab : NetUtil.wildcardMatch_in6_addr sem host A B p = some true)
    (hbc : NetUtil.wildcardMatch_in6_addr sem host B C p = some true) :
    NetUtil.wildcardMatch_in6_addr sem host A C p = some true := by
  cases hu : prefixLengthToIpV6Mask sem p with
  | none =>
    simp only [NetUtil.wildcardMatch_in6_addr, hu] at hab
    exact Option.noConfusion hab
  | some mu =>
    cases hl : prefixLengthToIpV6Mask sem (lowerMaskArg p) with
    | none =>
      simp only [NetUtil.wildcardMatch_in6_addr, hu, hl] at hab
      exact Option.noConfusion hab
    | some ml =>
      rw [wildcardMatch_in6_addr_of_mask sem host A B p mu ml hu hl] at hab
      rw [wildcardMatch_in6_addr_of_mask sem host B C p mu ml hu hl] at hbc
      rw [wildcardMatch_in6_addr_of_mask sem host A C p mu ml hu hl]
      have h1 := Bool.and_eq_true_iff.1 (Option.some.inj hab)
      have h2 := Bool.and_eq_true_iff.1 (Option.some.inj hbc)
      refine congrArg some (Bool.and_eq_true_iff.2 ⟨?_, ?_⟩)
      · exact beq_iff_eq.2 ((beq_iff_eq.1 h1.1).trans (beq_iff_eq.1 h2.1))
      · exact beq_iff_eq.2 ((beq_iff_eq.1 h1.2).trans (beq_iff_eq.1 h2.2))

/-! ## Claims -/

/-- C1: for every pair of 4-byte addresses and every prefix length in 0..32, the
IPv4 `wildcardMatch` returns a result, and that result is true exactly when the
two addresses agree on their first `prefixLength` bits in network order (bit `k`
is bit `7 - k % 8` of byte `k / 8`); the other bits play no part.  This holds for
either host byte order and either shift semantics. -/
theorem wildcardMatch_in_addr_iff_leading_bits (sem : ShiftSemantics) (host : ByteOrder)
    (data pattern : in_addr) (prefixLength : Nat) (h : prefixLength ≤ 32) :
    ∃ r, NetUtil.wildcardMatch_in_addr sem host data pattern prefixLength = some r ∧
      (r = true ↔ ∀ k, k < prefixLength → addrBit data k = addrBit pattern k) := by
  refine ⟨_, wildcardMatch_in_addr_eq sem host data pattern prefixLength h, ?_⟩
  rw [decide_eq_true_iff]
  rfl

/-- Witness of C1 at `10.0.0.1`, `10.0.0.2` and prefix length 24. -/
theorem wildcardMatch_in_addr_iff_leading_bits_witness :
    (24 ≤ 32) ∧
    ∃ r, NetUtil.wildcardMatch_in_addr .standard .littleEndian ip_10_0_0_1 ip_10_0_0_2 24
        = some r ∧
      (r = true ↔ ∀ k, k < 24 → addrBit ip_10_0_0_1 k = addrBit ip_10_0_0_2 k) :=
  ⟨by decide,
    wildcardMatch_in_addr_iff_leading_bits .standard .littleEndian ip_10_0_0_1 ip_10_0_0_2 24
      (by decide)⟩

/-- C3: for every prefix length in 0..32, `prefixLengthToIpV4Mask` returns the
32-bit value `2 ^ 32 - 2 ^ (32 - prefixLength)` modulo `2 ^ 32`, whose bits
`32 - prefixLength .. 31` (the top `prefixLength` bits) are one and whose other
bits are zero; it is 0 at 0 and `0xFFFFFFFF` at 32. -/
theorem prefixLengthToIpV4Mask_spec (sem : ShiftSemantics) (prefixLength : Nat)
    (h : prefixLength ≤ 32) :
    (∃ m, prefixLengthToIpV4Mask sem prefixLength = some m ∧
      m = (2 ^ 32 - 2 ^ (32 - prefixLength)) % 2 ^ 32 ∧
      m < 2 ^ 32 ∧
      ∀ j, m.testBit j = (decide (j < 32) && decide (32 - prefixLength ≤ j))) ∧
    prefixLengthToIpV4Mask sem 0 = some 0 ∧
    prefixLengthToIpV4Mask sem 32 = some 0xFFFFFFFF := by
  have hpos : 0 < 2 ^ (32 - prefixLength) := Nat.two_pow_pos _
  have hlt : 2 ^ 32 - 2 ^ (32 - prefixLength) < 2 ^ 32 := by omega
  refine ⟨⟨_, ipv4Mask_value sem prefixLength h, (Nat.mod_eq_of_lt hlt).symm, hlt,
    isLeadingMask_sub 32 prefixLength⟩, ?_, ?_⟩
  · exact ipv4Mask_value sem 0 (by decide)
  · exact ipv4Mask_value sem 32 (by decide)

/-- Witness of C3 at prefix length 24, where the mask is `0xFFFFFF00`. -/
theorem prefixLengthToIpV4Mask_spec_witness :
    (24 ≤ 32) ∧ prefixLengthToIpV4Mask .standard 24 = some 0xFFFFFF00 := by
  refine ⟨by decide, ?_⟩
  obtain ⟨⟨m, h1, h2, _⟩, _⟩ := prefixLengthToIpV4Mask_spec .standard 24 (by decide)
  rw [h1, h2]
  rfl

/-- C4: for every prefix length in 0..64, `prefixLengthToIpV6Mask` returns the
64-bit value `2 ^ 64 - 2 ^ (64 - subnetPrefix)` modulo `2 ^ 64`, whose bits
`64 - subnetPrefix .. 63` (the top `subnetPrefix` bits) are one and whose other
bits are zero; it is 0 at 0 and the all-ones word at 64. -/
theorem prefixLengthToIpV6Mask_spec (sem : ShiftSemantics) (subnetPrefix : Nat)
    (h : subnetPrefix ≤ 64) :
    (∃ m, prefixLengthToIpV6Mask sem subnetPrefix = some m ∧
      m = (2 ^ 64 - 2 ^ (64 - subnetPrefix)) % 2 ^ 64 ∧
      m < 2 ^ 64 ∧
      ∀ j, m.testBit j = (decide (j < 64) && decide (64 - subnetPrefix ≤ j))) ∧
    prefixLengthToIpV6Mask sem 0 = some 0 ∧
    prefixLengthToIpV6Mask sem 64 = some 0xFFFFFFFFFFFFFFFF := by
  have hpos : 0 < 2 ^ (64 - subnetPrefix) := Nat.two_pow_pos _
  have hlt : 2 ^ 64 - 2 ^ (64 - subnetPrefix) < 2 ^ 64 := by omega
  refine ⟨⟨_, ipv6Mask_value sem subnetPrefix h, (Nat.mod_eq_of_lt hlt).symm, hlt,
    isLeadingMask_sub 64 subnetPrefix⟩, ?_, ?_⟩
  · exact ipv6Mask_value sem 0 (by decide)
  · exact ipv6Mask_value sem 64 (by decide)

/-- Witness of C4 at prefix length 48, where the mask is `0xFFFFFFFFFFFF0000`. -/
theorem prefixLengthToIpV6Mask_spec_witness :
    (48 ≤ 64) ∧ prefixLengthToIpV6Mask .standard 48 = some 0xFFFFFFFFFFFF0000 := by
  refine ⟨by decide, ?_⟩
  obtain ⟨⟨m, h1, h2, _⟩, _⟩ := prefixLengthToIpV6Mask_spec .standard 48 (by decide)
  rw [h1, h2]
  rfl

/-- C8: for every pair of 4-byte addresses the IPv4 `wildcardMatch` with prefix
length 0 returns true, for either host byte order and either shift
semantics. -/
theorem wildcardMatch_in_addr_zero (sem : ShiftSemantics) (host : ByteOrder)
    (A B : in_addr) :
    NetUtil.wildcardMatch_in_addr sem host A B 0 = some true := by
  rw [wildcardMatch_in_addr_eq sem host A B 0 (by decide)]
  have h0 : agreeOnLeadingBits A B 0 := fun k hk => absurd hk (Nat.not_lt_zero k)
  rw [decide_eq_true h0]

/-- C10: for every pair of 4-byte addresses the IPv4 `wildcardMatch` with prefix
length 32 returns a result that is true exactly when the four bytes of the one
equal the four bytes of the other; for `10.0.0.1` and `10.0.0.2` it is false. -/
theorem wildcardMatch_in_addr_full (sem : ShiftSemantics) (host : ByteOrder)
    (A B : in_addr) :
    (∃ r, NetUtil.wildcardMatch_in_addr sem host A B 32 = some r ∧
      (r = true ↔ ∀ i : Fin 4, A i = B i)) ∧
    NetUtil.wildcardMatch_in_addr sem host ip_10_0_0_1 ip_10_0_0_2 32 = some false := by
  have full : ∀ X Y : in_addr, (decide (agreeOnLeadingBits X Y 32) = true ↔ ∀ i : Fin 4, X i = Y i) := by
    intro X Y
    rw [decide_eq_true_iff, show (32 : Nat) = 8 * 4 from rfl, agreeOnLeadingBits_full]
    exact funext_iff
  refine ⟨⟨_, wildcardMatch_in_addr_eq sem host A B 32 (by decide), full A B⟩, ?_⟩
  rw [wildcardMatch_in_addr_eq sem host _ _ 32 (by decide)]
  have hne : ¬ agreeOnLeadingBits ip_10_0_0_1 ip_10_0_0_2 32 := by
    intro hall
    have := (full _ _).1 (decide_eq_true hall) 3
    exact absurd this (by decide)
  rw [decide_eq_false hne]

/-- C2, evaluated at `data = 2001:db8:0:0:8000::`, `pattern = 2001:db8::`,
`prefixLength = 32`: the two addresses agree on their first 32 bits, yet the
IPv6 `wildcardMatch` has no defined result (the lower mask is derived from
`prefixLength - 64`, which wraps, by a shift whose count is out of range), and
where the shift reduces its count modulo 64 the result is false, because the
lower mask then covers the top 32 bits of bytes 8..15. -/
theorem wildcardMatch_in6_addr_prefix_32_eval :
    agreeOnLeadingBits ip6_doc_bit64 ip6_doc 32 ∧
    NetUtil.wildcardMatch_in6_addr .standard .littleEndian ip6_doc_bit64 ip6_doc 32 = none ∧
    NetUtil.wildcardMatch_in6_addr .standard .bigEndian ip6_doc_bit64 ip6_doc 32 = none ∧
    NetUtil.wildcardMatch_in6_addr .masked .littleEndian ip6_doc_bit64 ip6_doc 32
      = some false ∧
    NetUtil.wildcardMatch_in6_addr .masked .bigEndian ip6_doc_bit64 ip6_doc 32
      = some false := by
  decide

/-- C5, evaluated at `prefixLength = 16`: `prefixLength - 64` is `0xFFFFFFD0` in
32-bit unsigned arithmetic, so the zero case of `prefixLengthToIpV6Mask` is not
taken and the count `64 - subnetPrefix` is out of range.  The lower mask has no
defined value; where the shift reduces its count modulo 64 it is
`0xFFFF000000000000`, not zero, and the match of `::1:0:0:0` against `::`
(equal in bytes 0..7) is false while that of `::` against `::` is true. -/
theorem lowerMask_prefix_16_eval :
    lowerMaskArg 16 = 0xFFFFFFD0 ∧
    sub64 64 (lowerMaskArg 16) = 0xFFFFFFFF00000070 ∧
    prefixLengthToIpV6Mask .standard (lowerMaskArg 16) = none ∧
    prefixLengthToIpV6Mask .masked (lowerMaskArg 16) = some 0xFFFF000000000000 ∧
    htobe64 .bigEndian 0xFFFF000000000000 = 0xFFFF000000000000 ∧
    htobe64 .littleEndian 0xFFFF000000000000 = 0x000000000000FFFF ∧
    NetUtil.wildcardMatch_in6_addr .masked .littleEndian ip6_bit79 ip6_any 16 = some false ∧
    NetUtil.wildcardMatch_in6_addr .masked .bigEndian ip6_bit79 ip6_any 16 = some false ∧
    NetUtil.wildcardMatch_in6_addr .masked .littleEndian ip6_any ip6_any 16 = some true ∧
    NetUtil.wildcardMatch_in6_addr .masked .bigEndian ip6_any ip6_any 16 = some true := by
  decide

/-- C6, evaluated at `data = 0:0:0:1::`, `pattern = ::` and the prefix lengths 65
and 127: byte 7 of the two addresses differs, yet the IPv6 `wildcardMatch` has no
defined result (the count `64 - prefixLength` of the upper mask wraps), and
where the shift reduces its count modulo 64 the result is true, because the
upper mask then covers only the top `prefixLength - 64` bits of bytes 0..7. -/
theorem wildcardMatch_in6_addr_prefix_65_127_eval :
    ip6_bit63 7 ≠ ip6_any 7 ∧
    NetUtil.wildcardMatch_in6_addr .standard .littleEndian ip6_bit63 ip6_any 65 = none ∧
    NetUtil.wildcardMatch_in6_addr .standard .bigEndian ip6_bit63 ip6_any 65 = none ∧
    NetUtil.wildcardMatch_in6_addr .standard .littleEndian ip6_bit63 ip6_any 127 = none ∧
    NetUtil.wildcardMatch_in6_addr .standard .bigEndian ip6_bit63 ip6_any 127 = none ∧
    NetUtil.wildcardMatch_in6_addr .masked .littleEndian ip6_bit63 ip6_any 65 = some true ∧
    NetUtil.wildcardMatch_in6_addr .masked .bigEndian ip6_bit63 ip6_any 65 = some true ∧
    NetUtil.wildcardMatch_in6_addr .masked .littleEndian ip6_bit63 ip6_any 127 = some true ∧
    NetUtil.wildcardMatch_in6_addr .masked .bigEndian ip6_bit63 ip6_any 127 = some true := by
  decide

/-- C7, evaluated at `A = ::1`, `B = ::`, `prefixLength = 0`: the IPv6
`wildcardMatch` has no defined result (`prefixLength - 64` wraps to
`0xFFFFFFC0` and the shift count of the lower mask is out of range), and where
the shift reduces its count modulo 64 the lower mask is all ones and the result
is false. -/
theorem wildcardMatch_in6_addr_prefix_0_eval :
    lowerMaskArg 0 = 0xFFFFFFC0 ∧
    prefixLengthToIpV6Mask .masked (lowerMaskArg 0) = some 0xFFFFFFFFFFFFFFFF ∧
    NetUtil.wildcardMatch_in6_addr .standard .littleEndian ip6_loopback ip6_any 0 = none ∧
    NetUtil.wildcardMatch_in6_addr .standard .bigEndian ip6_loopback ip6_any 0 = none ∧
    NetUtil.wildcardMatch_in6_addr .masked .littleEndian ip6_loopback ip6_any 0
      = some false ∧
    NetUtil.wildcardMatch_in6_addr .masked .bigEndian ip6_loopback ip6_any 0
      = some false := by
  decide

/-- C9: for every pair of 16-byte addresses the IPv6 `wildcardMatch` with
prefix length 128 returns a result that is true exactly when all 16 bytes of the
one equal the corresponding bytes of the other, where the shift of the upper
mask, whose count `64 - 128` is out of range, reduces its count modulo 64; so
`::1` matches `::1` and does not match `::`. -/
theorem wildcardMatch_in6_addr_prefix_128 (host : ByteOrder) (A B : in6_addr) :
    (∃ r, NetUtil.wildcardMatch_in6_addr .masked host A B 128 = some r ∧
      (r = true ↔ ∀ i : Fin 16, A i = B i)) ∧
    NetUtil.wildcardMatch_in6_addr .masked host ip6_loopback ip6_loopback 128 = some true ∧
    NetUtil.wildcardMatch_in6_addr .masked host ip6_loopback ip6_any 128 = some false := by
  have key := wildcardMatch_in6_addr_masked host A B 128 (by decide)
  have eu : maskedUpperBits 128 = 8 * 8 := rfl
  have el : maskedLowerBits 128 = 8 * 8 := rfl
  refine ⟨⟨_, key, ?_⟩, ?_, ?_⟩
  · rw [Bool.and_eq_true, decide_eq_true_iff, decide_eq_true_iff, eu, el,
      agreeOnLeadingBits_full, agreeOnLeadingBits_full, upperBytes_eq_iff, lowerBytes_eq_iff]
    constructor
    · rintro ⟨h1, h2⟩ i
      by_cases hi : i.val < 8
      · exact h1 i hi
      · exact h2 i (by omega)
    · intro h
      exact ⟨fun i _ => h i, fun i _ => h i⟩
  · cases host <;> decide
  · cases host <;> decide

/-- C11: for every pair of 16-byte addresses the IPv6 `wildcardMatch` with
prefix length 64 returns a result that is true exactly when bytes 0..7 of the
one equal bytes 0..7 of the other; hence two addresses that differ only in
bytes 8..15 match, as `::1` and `::` do. -/
theorem wildcardMatch_in6_addr_prefix_64 (sem : ShiftSemantics) (host : ByteOrder)
    (A B : in6_addr) :
    (∃ r, NetUtil.wildcardMatch_in6_addr sem host A B 64 = some r ∧
      (r = true ↔ ∀ i : Fin 16, i.val < 8 → A i = B i)) ∧
    ((∀ i : Fin 16, i.val < 8 → A i = B i) →
      NetUtil.wildcardMatch_in6_addr sem host A B 64 = some true) ∧
    NetUtil.wildcardMatch_in6_addr sem host ip6_loopback ip6_any 64 = some true := by
  refine ⟨⟨_, wildcardMatch_in6_addr_64_eq sem host A B, decide_eq_true_iff⟩, ?_, ?_⟩
  · intro h
    rw [wildcardMatch_in6_addr_64_eq, decide_eq_true h]
  · rw [wildcardMatch_in6_addr_64_eq]
    rfl

/-- C13: monotonicity of the IPv4 matcher.  For every pair of 4-byte addresses
and all prefix lengths `p' ≤ p ≤ 32`, if `wildcardMatch(A, B, p)` is true then
`wildcardMatch(A, B, p')` is true. -/
theorem wildcardMatch_in_addr_monotone (sem : ShiftSemantics) (host : ByteOrder)
    (A B : in_addr) (p p' : Nat) (hp : p ≤ 32) (hpp : p' ≤ p)
    (h : NetUtil.wildcardMatch_in_addr sem host A B p = some true) :
    NetUtil.wildcardMatch_in_addr sem host A B p' = some true := by
  rw [wildcardMatch_in_addr_eq sem host A B p hp] at h
  rw [wildcardMatch_in_addr_eq sem host A B p' (by omega)]
  have hagree : agreeOnLeadingBits A B p := of_decide_eq_true (Option.some.inj h)
  rw [decide_eq_true (agreeOnLeadingBits_mono A B p p' hpp hagree)]

/-- Witness of C13 at `192.168.1.5`, `192.168.1.0`, `p = 24` and `p' = 16`. -/
theorem wildcardMatch_in_addr_monotone_witness :
    (24 ≤ 32) ∧ (16 ≤ 24) ∧
    NetUtil.wildcardMatch_in_addr .standard .littleEndian ip_192_168_1_5 ip_192_168_1_0 24
      = some true ∧
    NetUtil.wildcardMatch_in_addr .standard .littleEndian ip_192_168_1_5 ip_192_168_1_0 16
      = some true :=
  ⟨by decide, by decide, by decide,
    wildcardMatch_in_addr_monotone .standard .littleEndian ip_192_168_1_5 ip_192_168_1_0
      24 16 (by decide) (by decide) (by decide)⟩

/-- C16: with the addresses given by their network-order bytes, the IPv4
`wildcardMatch` of `192.168.1.5` against `192.168.1.0` with prefix length 24 is
true and that of `192.168.2.5` against `192.168.1.0` with prefix length 24 is
false, for either host byte order and either shift semantics. -/
theorem wildcardMatch_in_addr_examples (sem : ShiftSemantics) (host : ByteOrder) :
    NetUtil.wildcardMatch_in_addr sem host ip_192_168_1_5 ip_192_168_1_0 24 = some true ∧
    NetUtil.wildcardMatch_in_addr sem host ip_192_168_2_5 ip_192_168_1_0 24 = some false := by
  cases sem <;> cases host <;> decide

/-- C18: for every prefix length in 0..32, `prefixLengthToIpV4Mask` evaluates no
out-of-range shift.  At 0 the zero case is taken: the result is 0 although a
shift by the count `32 - 0 = 32` would have no defined value.  At 1..32 the
count `32 - subnetPrefix` is computed without wrap and lies in 0..31.  In both
cases the result is defined under the semantics that leaves an out-of-range
shift undefined. -/
theorem prefixLengthToIpV4Mask_shift_in_range (subnetPrefix : Nat)
    (h : subnetPrefix ≤ 32) :
    (subnetPrefix = 0 →
      prefixLengthToIpV4Mask .standard subnetPrefix = some 0 ∧
      shl .standard 32 1 (sub32 32 subnetPrefix) = none) ∧
    (1 ≤ subnetPrefix →
      sub32 32 subnetPrefix = 32 - subnetPrefix ∧ sub32 32 subnetPrefix < 32) ∧
    ipV4ShiftDefined subnetPrefix ∧
    (prefixLengthToIpV4Mask .standard subnetPrefix).isSome = true := by
  have hcount : 1 ≤ subnetPrefix →
      sub32 32 subnetPrefix = 32 - subnetPrefix ∧ sub32 32 subnetPrefix < 32 := by
    intro h1
    simp only [sub32]
    omega
  have hdef : ipV4ShiftDefined subnetPrefix := by
    by_cases h0 : subnetPrefix = 0
    · exact Or.inl h0
    · exact Or.inr (hcount (by omega)).2
  refine ⟨?_, hcount, hdef, (ipV4Mask_standard_isSome_iff subnetPrefix).2 hdef⟩
  intro h0
  subst h0
  exact ⟨rfl, rfl⟩

/-- Witness of C18 at prefix length 1, where the count is 31. -/
theorem prefixLengthToIpV4Mask_shift_in_range_witness :
    (1 ≤ 32) ∧ sub32 32 1 = 31 ∧ ipV4ShiftDefined 1 := by
  have h := prefixLengthToIpV4Mask_shift_in_range 1 (by decide)
  exact ⟨by decide, (h.2.1 (by decide)).1, h.2.2.1⟩

/-- C20: the result of each `wildcardMatch` overload does not depend on the host
byte order.  The little-endian model (address bytes loaded as a little-endian
word, `htobe32` / `htobe64` a byte swap) and the big-endian model (address
bytes loaded as a big-endian word, `htobe32` / `htobe64` the identity) return
the same result for every pair of addresses, every prefix length and either
shift semantics. -/
theorem wildcardMatch_host_independent (sem : ShiftSemantics) (prefixLength : Nat) :
    (∀ A B : in_addr,
      NetUtil.wildcardMatch_in_addr sem .littleEndian A B prefixLength
        = NetUtil.wildcardMatch_in_addr sem .bigEndian A B prefixLength) ∧
    (∀ A B : in6_addr,
      NetUtil.wildcardMatch_in6_addr sem .littleEndian A B prefixLength
        = NetUtil.wildcardMatch_in6_addr sem .bigEndian A B prefixLength) := by
  constructor
  · intro A B
    unfold NetUtil.wildcardMatch_in_addr
    cases prefixLengthToIpV4Mask sem prefixLength with
    | none => rfl
    | some m =>
      have key := masked_eq_host_independent 4 A B m
      simp only [htobe32, load]
      congr 1
      rw [Bool.eq_iff_iff, beq_iff_eq, beq_iff_eq, Nat.land_comm (loadLE 4 A),
        Nat.land_comm (loadLE 4 B), Nat.land_comm (loadBE 4 A), Nat.land_comm (loadBE 4 B)]
      exact key
  · intro A B
    unfold NetUtil.wildcardMatch_in6_addr
    cases prefixLengthToIpV6Mask sem prefixLength with
    | none => rfl
    | some mu =>
      cases prefixLengthToIpV6Mask sem (lowerMaskArg prefixLength) with
      | none => rfl
      | some ml =>
        have ku := masked_eq_host_independent 8 (upperBytes A) (upperBytes B) mu
        have kl := masked_eq_host_independent 8 (lowerBytes A) (lowerBytes B) ml
        simp only [htobe64, load, upperWord, lowerWord]
        congr 1
        rw [Bool.eq_iff_iff, Bool.and_eq_true, Bool.and_eq_true, beq_iff_eq, beq_iff_eq,
          beq_iff_eq, beq_iff_eq, ku, kl]

/-- C12, evaluated at `A = 2001:db8:0:0:8000::`, `B = 2001:db8::`, `p = 64` and
`p' = 1`: the IPv6 `wildcardMatch` is true at prefix length 64 (bytes 0..7 are
equal), yet at the shorter prefix length 1 it has no defined result (the lower
mask is derived from `1 - 64`, which wraps, by a shift whose count is out of
range), and where the shift reduces its count modulo 64 the result at 1 is
false, because the lower mask then covers the top bit of bytes 8..15. -/
theorem wildcardMatch_in6_addr_not_monotone_eval :
    (1 ≤ 64) ∧
    NetUtil.wildcardMatch_in6_addr .standard .littleEndian ip6_doc_bit64 ip6_doc 64
      = some true ∧
    NetUtil.wildcardMatch_in6_addr .standard .bigEndian ip6_doc_bit64 ip6_doc 64
      = some true ∧
    NetUtil.wildcardMatch_in6_addr .standard .littleEndian ip6_doc_bit64 ip6_doc 1 = none ∧
    NetUtil.wildcardMatch_in6_addr .standard .bigEndian ip6_doc_bit64 ip6_doc 1 = none ∧
    NetUtil.wildcardMatch_in6_addr .masked .littleEndian ip6_doc_bit64 ip6_doc 64
      = some true ∧
    NetUtil.wildcardMatch_in6_addr .masked .bigEndian ip6_doc_bit64 ip6_doc 64
      = some true ∧
    NetUtil.wildcardMatch_in6_addr .masked .littleEndian ip6_doc_bit64 ip6_doc 1
      = some false ∧
    NetUtil.wildcardMatch_in6_addr .masked .bigEndian ip6_doc_bit64 ip6_doc 1
      = some false := by
  decide

/-- C14, evaluated over the whole domain 0..128: the two mask derivations of the
IPv6 `wildcardMatch`, `prefixLengthToIpV6Mask(prefixLength)` and
`prefixLengthToIpV6Mask(prefixLength - 64)`, both avoid an out-of-range shift at
prefix length 64 and at no other.  At prefix length 1 the second derivation
gets `0xFFFFFFC1` and its shift count is `0xFFFFFFFF0000007F`; at prefix length
100 the count of the first is `0xFFFFFFFFFFFFFFDC`. -/
theorem ipV6_shift_defined_only_at_64 :
    (∀ p : Fin 129,
      (ipV6ShiftDefined p.val ∧ ipV6ShiftDefined (lowerMaskArg p.val)) ↔ p.val = 64) ∧
    lowerMaskArg 1 = 0xFFFFFFC1 ∧
    sub64 64 (lowerMaskArg 1) = 0xFFFFFFFF0000007F ∧
    prefixLengthToIpV6Mask .standard (lowerMaskArg 1) = none ∧
    sub64 64 100 = 0xFFFFFFFFFFFFFFDC ∧
    prefixLengthToIpV6Mask .standard 100 = none := by
  decide

/-- C15: self-match at full prefix.  For every 4-byte address the IPv4
`wildcardMatch(A, A, 32)` is true, for either shift semantics.  For every
16-byte address the IPv6 `wildcardMatch(A, A, 128)` is true where the shift of
the upper mask, whose count `64 - 128` is out of range, reduces its count modulo
64; and under either shift semantics it is never false, since each word is
compared with itself. -/
theorem wildcardMatch_self_full :
    (∀ (sem : ShiftSemantics) (host : ByteOrder) (A : in_addr),
      NetUtil.wildcardMatch_in_addr sem host A A 32 = some true) ∧
    (∀ (host : ByteOrder) (A : in6_addr),
      NetUtil.wildcardMatch_in6_addr .masked host A A 128 = some true) ∧
    (∀ (sem : ShiftSemantics) (host : ByteOrder) (A : in6_addr),
      NetUtil.wildcardMatch_in6_addr sem host A A 128 ≠ some false) := by
  have hmasked : ∀ (host : ByteOrder) (A : in6_addr),
      NetUtil.wildcardMatch_in6_addr .masked host A A 128 = some true := by
    intro host A
    rw [wildcardMatch_in6_addr_masked host A A 128 (by decide),
      decide_eq_true (agreeOnLeadingBits_refl _ _),
      decide_eq_true (agreeOnLeadingBits_refl _ _)]
    rfl
  refine ⟨?_, hmasked, ?_⟩
  · intro sem host A
    rw [wildcardMatch_in_addr_eq sem host A A 32 (by decide),
      decide_eq_true (agreeOnLeadingBits_refl A 32)]
  · intro sem host A
    cases sem with
    | standard =>
      rw [wildcardMatch_in6_addr_standard_none host A A 128 (by decide) (by decide)]
      exact Option.noConfusion
    | masked =>
      rw [hmasked host A]
      decide

/-- C17: with the addresses given by their 16 network-order bytes, the IPv6
`wildcardMatch` of `2001:db8::1` against `2001:db8::` with prefix length 32 is
true and that of `2001:db9::1` against `2001:db8::` with prefix length 32 is
false, for either host byte order, where the shift of the lower mask, whose
count is out of range at this prefix length, reduces its count modulo 64.  The
second match is true under neither shift semantics: the upper mask, which is in
range, already separates the two addresses. -/
theorem wildcardMatch_in6_addr_examples (host : ByteOrder) :
    NetUtil.wildcardMatch_in6_addr .masked host ip6_doc_1 ip6_doc 32 = some true ∧
    NetUtil.wildcardMatch_in6_addr .masked host ip6_db9_1 ip6_doc 32 = some false ∧
    (∀ sem : ShiftSemantics,
      NetUtil.wildcardMatch_in6_addr sem host ip6_db9_1 ip6_doc 32 ≠ some true) := by
  refine ⟨?_, ?_, ?_⟩
  · cases host <;> decide
  · cases host <;> decide
  · intro sem
    cases sem <;> cases host <;> decide

/-- C19: for every fixed prefix length, in range or not, each `wildcardMatch`
overload is an equivalence relation on the addresses of its family, where an
out-of-range shift reduces its count modulo the width of its operand:
`wildcardMatch(A, A, p)` is true, `wildcardMatch(A, B, p)` equals
`wildcardMatch(B, A, p)`, and `wildcardMatch(A, B, p)` together with
`wildcardMatch(B, C, p)` implies `wildcardMatch(A, C, p)`.  Symmetry and
transitivity hold under either shift semantics, and under either semantics
`wildcardMatch(A, A, p)` is never false. -/
theorem wildcardMatch_equivalence (host : ByteOrder) (prefixLength : Nat) :
    ((∀ A : in_addr,
        NetUtil.wildcardMatch_in_addr .masked host A A prefixLength = some true) ∧
      (∀ A B : in_addr,
        NetUtil.wildcardMatch_in_addr .masked host A B prefixLength
          = NetUtil.wildcardMatch_in_addr .masked host B A prefixLength) ∧
      (∀ A B C : in_addr,
        NetUtil.wildcardMatch_in_addr .masked host A B prefixLength = some true →
        NetUtil.wildcardMatch_in_addr .masked host B C prefixLength = some true →
        NetUtil.wildcardMatch_in_addr .masked host A C prefixLength = some true)) ∧
    ((∀ A : in6_addr,
        NetUtil.wildcardMatch_in6_addr .masked host A A prefixLength = some true) ∧
      (∀ A B : in6_addr,
        NetUtil.wildcardMatch_in6_addr .masked host A B prefixLength
          = NetUtil.wildcardMatch_in6_addr .masked host B A prefixLength) ∧
      (∀ A B C : in6_addr,
        NetUtil.wildcardMatch_in6_addr .masked host A B prefixLength = some true →
        NetUtil.wildcardMatch_in6_addr .masked host B C prefixLength = some true →
        NetUtil.wildcardMatch_in6_addr .masked host A C prefixLength = some true)) ∧
    (∀ sem : ShiftSemantics,
      (∀ A : in_addr,
        NetUtil.wildcardMatch_in_addr sem host A A prefixLength ≠ some false) ∧
      (∀ A B : in_addr,
        NetUtil.wildcardMatch_in_addr sem host A B prefixLength
          = NetUtil.wildcardMatch_in_addr sem host B A prefixLength) ∧
      (∀ A B C : in_addr,
        NetUtil.wildcardMatch_in_addr sem host A B prefixLength = some true →
        NetUtil.wildcardMatch_in_addr sem host B C prefixLength = some true →
        NetUtil.wildcardMatch_in_addr sem host A C prefixLength = some true) ∧
      (∀ A : in6_addr,
        NetUtil.wildcardMatch_in6_addr sem host A A prefixLength ≠ some false) ∧
      (∀ A B : in6_addr,
        NetUtil.wildcardMatch_in6_addr sem host A B prefixLength
          = NetUtil.wildcardMatch_in6_addr sem host B A prefixLength) ∧
      (∀ A B C : in6_addr,
        NetUtil.wildcardMatch_in6_addr sem host A B prefixLength = some true →
        NetUtil.wildcardMatch_in6_addr sem host B C prefixLength = some true →
        NetUtil.wildcardMatch_in6_addr sem host A C prefixLength = some true)) := by
  refine ⟨⟨?_, ?_, ?_⟩, ⟨?_, ?_, ?_⟩, ?_⟩
  · intro A
    exact wildcardMatch_in_addr_refl_of_defined .masked host A prefixLength
      (ipV4Mask_masked_isSome prefixLength)
  · intro A B
    exact wildcardMatch_in_addr_symm .masked host A B prefixLength
  · intro A B C
    exact wildcardMatch_in_addr_trans .masked host A B C prefixLength
  · intro A
    exact wildcardMatch_in6_addr_refl_of_defined .masked host A prefixLength
      (ipV6Mask_masked_isSome prefixLength)
      (ipV6Mask_masked_isSome (lowerMaskArg prefixLength))
  · intro A B
    exact wildcardMatch_in6_addr_symm .masked host A B prefixLength
  · intro A B C
    exact wildcardMatch_in6_addr_trans .masked host A B C prefixLength
  · intro sem
    refine ⟨?_, ?_, ?_, ?_, ?_, ?_⟩
    · intro A
      exact wildcardMatch_in_addr_refl_ne_false sem host A prefixLength
    · intro A B
      exact wildcardMatch_in_addr_symm sem host A B prefixLength
    · intro A B C
      exact wildcardMatch_in_addr_trans sem host A B C prefixLength
    · intro A
      exact wildcardMatch_in6_addr_refl_ne_false sem host A prefixLength
    · intro A B
      exact wildcardMatch_in6_addr_symm sem host A B prefixLength
    · intro A B C
      exact wildcardMatch_in6_addr_trans sem host A B C prefixLength

end Aeron
